import Mathlib

/-!
Verification of the AV1-over-RTP payload codec
(`libavformat/rtpenc_av1.c` and `libavformat/rtpdec_av1.c`).

The development shallowly embeds the two C translation units:

* the LEB128 varint encoder `get_leb128` / decoder `rtp_leb128`;
* the depacketizer `av1_handle_packet` together with its per-stream
  accumulation state `PayloadContext`;
* the packetizer `ff_rtp_send_av1` (its per-access-unit loop, the
  aggregation-buffer flush logic and the big-OBU fragmentation loop).

Machine integers are modelled as `Nat` (with an explicit `% 2^32` where a
`uint32_t` store truncates); byte buffers are `List Nat`; C functions whose
errors are return codes yield `Except`.  Reads or writes that fall outside a
buffer are undefined behaviour in the C; the embedding makes them explicit as
the distinguished outcomes `DecErr.oobRead` / `DecErr.oobWrite` (for the
decoder) and `Option.none` (for the varint decoder and the packetizer), since
a shallow embedding has no value for an out-of-bounds access.
-/

/- ### The LEB128 varint codec -/

/-- Fuel-driven floor-log2 helper (structurally recursive so that the kernel
can evaluate it). -/
def log2fuel : Nat → Nat → Nat
  | 0, _ => 0
  | fuel + 1, n => if n < 2 then 0 else log2fuel fuel (n / 2) + 1

/-- Modelled from the spec: `av_log2` (libavutil, not part of `src/`) returns
the position of the highest set bit, i.e. the floor of the base-2 logarithm,
and returns 0 on input 0.  The spec's group-count formula
"`ceil(bit_length(value)/7)` groups" determines this behaviour. -/
def av_log2 (n : Nat) : Nat := log2fuel n n

/-- `get_leb128(in, NULL)` (rtpenc_av1.c:38-42): the number of LEB128 groups,
`(av_log2(in) + 7) / 7`. -/
def get_leb128_len (u : Nat) : Nat := (av_log2 u + 7) / 7

/-- `get_leb128(in, pout)` (rtpenc_av1.c:38-52): the encoded bytes.  The C
packs byte `i` into bit position `8*i` of the `uint64_t` `*pout`, and callers
`memcpy` the low `bytes_num` bytes, so byte `i` of the encoding is
`((in >> (7*i)) & 0x7f)`, with the continuation bit `0x80` set on every byte
but the last. -/
def get_leb128_bytes (u : Nat) : List Nat :=
  (List.range (get_leb128_len u)).map fun i =>
    ((u >>> (7 * i)) &&& 0x7f) ||| (if i < get_leb128_len u - 1 then 0x80 else 0)

/-- `get_proper_bytes_num` (rtpenc_av1.c:59-67): the first `bytes_num < 8`
such that the LEB128 encoding of `size - bytes_num` takes exactly `bytes_num`
bytes; `none` models the C's `-1`. -/
def get_proper_bytes_num (size : Nat) : Option Nat :=
  (List.range 8).find? fun bn => get_leb128_len (size - bn) == bn

/-- Loop body of `rtp_leb128` (rtpdec_av1.c:44-56).  `k` counts the remaining
iterations of `for (i = 0; i < 8; i++)` (so `k + i = 8`); `p[off + i]` is the
byte the C reads through its cursor `p`.  A read past the end of `p` is
undefined behaviour in the C and yields `none` here.  When the loop finishes
without a terminating byte the C sets `*bytes_num = i + 1 = 9`. -/
def rtp_leb128_go (p : List Nat) (off : Nat) : Nat → Nat → Nat → Option (Nat × Nat)
  | 0, i, acc => some (acc, i + 1)
  | k + 1, i, acc =>
    match p[off + i]? with
    | none => none
    | some byte =>
      let acc' := acc ||| ((byte &&& 0x7f) <<< (7 * i))
      if byte &&& 0x80 = 0 then some (acc', i + 1)
      else rtp_leb128_go p off k (i + 1) acc'

/-- `rtp_leb128(p, &size, &bytes_num)` (rtpdec_av1.c:44-56), reading at cursor
`off` into `p`; returns `(size, bytes_num)`. -/
def rtp_leb128 (p : List Nat) (off : Nat) : Option (Nat × Nat) :=
  rtp_leb128_go p off 8 0 0

/-- A byte list is a legal LEB128 encoding as accepted by `rtp_leb128`:
non-empty, every byte but the last with the continuation bit set, the last
byte without it.  (Legality does not require minimality: redundant leading
groups are accepted by the decoder.) -/
def isLegalLeb128 : List Nat → Bool
  | [] => false
  | [b] => b &&& 0x80 == 0
  | b :: bs => (b &&& 0x80 != 0) && isLegalLeb128 bs

/-- The value assembled from the 7-bit groups of a LEB128 byte list, exactly
as `rtp_leb128` accumulates it. -/
def rtpLeb128Value : List Nat → Nat
  | [] => 0
  | b :: bs => (b &&& 0x7f) ||| (rtpLeb128Value bs <<< 7)

/- ### The depacketizer (rtpdec_av1.c) -/

/-- Outcomes of `av1_handle_packet` other than a normal return.
`invalidData` is the C's `AVERROR_INVALIDDATA`; `assertFail` models a failed
`assert`; `oobRead` / `oobWrite` mark accesses outside a buffer, which are
undefined behaviour in the C and therefore have no defined result value. -/
inductive DecErr where
  | invalidData
  | assertFail
  | oobRead
  | oobWrite
deriving DecidableEq, Repr

deriving instance DecidableEq for Except

/-- `struct PayloadContext` (rtpdec_av1.c:31-42).  `obu_buf` is the
accumulation allocation, of length `obu_buf_size`. -/
structure PayloadContext where
  seq_profile : Nat
  seq_level_idx : Nat
  seq_tier : Nat
  obu_total_size : Nat
  obu_readed_size : Nat
  obu_buf : List Nat
  obu_buf_size : Nat
deriving DecidableEq, Repr

/-- The `W == 0` aggregation loop `while (len > 0)` (rtpdec_av1.c:130-141).
`off` is the cursor `buf - packet_start`; the loop guard `len > 0` is
`off < p.length` because `len` always equals `p.length - off` as integers.
`fuel` bounds the iteration count (each iteration advances `off` by at least
one byte, so `p.length` iterations suffice); the `memcpy` of `elem_size`
bytes is an out-of-bounds read when fewer bytes remain. -/
def aggLoopW0 (p : List Nat) : Nat → Nat → List Nat → Except DecErr (List Nat)
  | 0, off, out => if off < p.length then .error .oobRead else .ok out
  | fuel + 1, off, out =>
    if off < p.length then
      match rtp_leb128 p off with
      | none => .error .oobRead
      | some (elem_size, bytes_num) =>
        let off := off + bytes_num
        if off + elem_size ≤ p.length then
          aggLoopW0 p fuel (off + elem_size) (out ++ (p.drop off).take elem_size)
        else .error .oobRead
    else .ok out

/-- The `W != 0` aggregation loop `for (i = 0; i < W; i++)`
(rtpdec_av1.c:143-160), counting down the remaining elements: the last
element has no length field and takes all remaining payload bytes. -/
def aggLoopW (p : List Nat) : Nat → Nat → List Nat → Except DecErr (List Nat)
  | 0, _, out => .ok out
  | 1, off, out =>
    if off ≤ p.length then .ok (out ++ p.drop off) else .error .oobRead
  | k + 2, off, out =>
    match rtp_leb128 p off with
    | none => .error .oobRead
    | some (elem_size, bytes_num) =>
      let off := off + bytes_num
      if off + elem_size ≤ p.length then
        aggLoopW p (k + 1) (off + elem_size) (out ++ (p.drop off).take elem_size)
      else .error .oobRead

/-- `av1_handle_packet` (rtpdec_av1.c:100-208).  Input is the RTP payload
`p`; the result pairs the updated `PayloadContext` with `some unit` when the
C returns 0 with a packet, or `none` when it returns 1 (fragment still in
progress).  `av_new_packet` / `av_grow_packet` / `av_realloc` are modelled as
always succeeding; `av_realloc` preserves the old contents and the fresh tail
bytes are unspecified (taken to be 0, and never exposed: output only ever
contains bytes previously written). -/
def av1_handle_packet (data : PayloadContext) (p : List Nat) :
    Except DecErr (PayloadContext × Option (List Nat)) :=
  match p with
  | [] => .error .invalidData
  | aggr_hdr :: _ =>
    let Z := aggr_hdr >>> 7
    let Y := (aggr_hdr >>> 6) &&& 0x01
    let W := (aggr_hdr >>> 4) &&& 0x03
    let _N := (aggr_hdr >>> 3) &&& 0x01
    if 0 = Z ∧ 0 = Y then
      -- aggregation packet
      if 0 = W then
        match aggLoopW0 p p.length 1 [] with
        | .error e => .error e
        | .ok out => .ok (data, some out)
      else
        match aggLoopW p W 1 [] with
        | .error e => .error e
        | .ok out => .ok (data, some out)
    else
      -- fragment packet
      if W = 0 ∨ W = 1 then
        -- W == 0: a leading length field that must match the remaining bytes
        let step1 : Except DecErr Nat :=
          if W = 0 then
            match rtp_leb128 p 1 with
            | none => .error .oobRead
            | some (elem_size, bytes_num) =>
              if (elem_size : Int) = (p.length : Int) - 1 - bytes_num then
                .ok (1 + bytes_num)
              else .error .assertFail
          else .ok 1
        match step1 with
        | .error e => .error e
        | .ok off =>
          -- first fragment of a new OBU: parse the OBU header to learn the size
          let stage2 : Except DecErr (Nat × List Nat × Nat) :=
            if data.obu_total_size = 0 then
              match p[off]? with
              | none => .error .oobRead
              | some obu_header =>
                let _forbidden_bit := obu_header >>> 7
                let _type := (obu_header >>> 3) &&& 0x0f
                let ext := (obu_header >>> 2) &&& 0x01
                let size_field := (obu_header >>> 1) &&& 0x01
                if size_field = 0 then .error .assertFail
                else
                  let pos := if ext = 1 then 2 else 1
                  match rtp_leb128 p (off + pos) with
                  | none => .error .oobRead
                  | some (elem_size, bytes_num) =>
                    let total := (elem_size + pos + bytes_num) % 2 ^ 32
                    if data.obu_buf_size < total then
                      .ok (total,
                           data.obu_buf ++ List.replicate (total - data.obu_buf_size) 0,
                           total)
                    else .ok (total, data.obu_buf, data.obu_buf_size)
            else .ok (data.obu_total_size, data.obu_buf, data.obu_buf_size)
          match stage2 with
          | .error e => .error e
          | .ok (total, buf, bufsize) =>
            let chunk := p.drop off
            if data.obu_readed_size + chunk.length ≤ buf.length then
              let buf' := buf.take data.obu_readed_size ++ chunk
                            ++ buf.drop (data.obu_readed_size + chunk.length)
              let readed := (data.obu_readed_size + chunk.length) % 2 ^ 32
              if total ≤ readed then
                .ok ({ data with obu_total_size := 0, obu_readed_size := 0,
                                 obu_buf := buf', obu_buf_size := bufsize },
                     some (buf'.take total))
              else
                .ok ({ data with obu_total_size := total, obu_readed_size := readed,
                                 obu_buf := buf', obu_buf_size := bufsize },
                     none)
            else .error .oobWrite
      else .error .assertFail

/- ### The packetizer (rtpenc_av1.c) -/

/-- Modelled from the spec: an extracted OBU as produced by the external OBU
extractor `ff_av1_extract_obu` (libavcodec/av1_parse.h, not part of `src/`):
the OBU's type and its raw bytes (`raw_data` / `raw_size`, the complete OBU
including its own header). -/
structure AV1OBU where
  type : Nat
  raw_data : List Nat
deriving DecidableEq, Repr

/-- `AV1_OBU_SEQUENCE_HEADER` (libavcodec/av1.h). -/
def AV1_OBU_SEQUENCE_HEADER : Nat := 1

/-- `AV1_OBU_TEMPORAL_DELIMITER` (libavcodec/av1.h). -/
def AV1_OBU_TEMPORAL_DELIMITER : Nat := 2

/-- `set_payload_header` (rtpenc_av1.c:78-87): the aggregation header byte
`Z << 7 | Y << 6 | W << 4 | N << 3`. -/
def set_payload_header (Z Y W N : Nat) : Nat :=
  Z <<< 7 ||| Y <<< 6 ||| W <<< 4 ||| N <<< 3

/-- The big-OBU fragmentation branch (rtpenc_av1.c:160-200): the
`while (size_with_leb128 + AV1_PAYLOAD_HEADER_SIZE > s->max_payload_size)`
loop emitting full-size fragments, followed by the final fragment of the
remainder.  Returns the emitted `(payload bytes, marker)` pairs and the
updated `(is_first_packet, is_first_fragment, N)` — all three are plain
function-scope variables of `ff_rtp_send_av1`, carried across OBUs, and `N`
is never cleared inside the loop.  `fuel` bounds the loop (one unit per
iteration; `raw.length` iterations suffice whenever the chunk size is
positive); `none` models a non-terminating loop or `get_proper_bytes_num`
returning `-1`, both of which make the C misbehave. -/
def fragObu (maxP : Nat) (hasSeq : Bool) :
    Nat → List Nat → Bool → Bool → Nat →
    Option (List (List Nat × Bool) × Bool × Bool × Nat)
  | 0, raw, is_first_packet, is_first_fragment, N =>
    if maxP < get_leb128_len raw.length + raw.length + 1 then none
    else
      some ([(set_payload_header 1 0 0 0 ::
               (get_leb128_bytes raw.length ++ raw), true)],
            is_first_packet, is_first_fragment, N)
  | fuel + 1, raw, is_first_packet, is_first_fragment, N =>
    if maxP < get_leb128_len raw.length + raw.length + 1 then
      match get_proper_bytes_num (maxP - 1) with
      | none => none
      | some bytes_num =>
        let frag_payload_size := maxP - 1 - bytes_num
        let Z := if is_first_fragment then 0 else 1
        let N' := if hasSeq && is_first_packet then 1 else N
        let ifp' := if hasSeq && is_first_packet then false else is_first_packet
        let payload := set_payload_header Z 1 0 N' ::
          (get_leb128_bytes frag_payload_size ++ raw.take frag_payload_size)
        match fragObu maxP hasSeq fuel (raw.drop frag_payload_size) ifp' false N' with
        | none => none
        | some (ps, a, b, c) => some ((payload, false) :: ps, a, b, c)
    else
      -- rtpenc_av1.c:190-199: last fragment, Z=1 Y=0 W=0 N=0, with a LEB128
      -- length field for the remaining bytes, sent with the marker bit set
      some ([(set_payload_header 1 0 0 0 ::
               (get_leb128_bytes raw.length ++ raw), true)],
            is_first_packet, is_first_fragment, N)

/-- The main OBU loop of `ff_rtp_send_av1` plus the final flush
(rtpenc_av1.c:136-224).  `buffered` holds the element bytes accumulated in
`s->buf` after the reserved aggregation-header byte, so the C's
`buffered_size` is `1 + buffered.length` when the buffer is non-empty.  The
C's `obu_index--` retry after a flush is inlined: after flushing, the same
OBU is re-examined against the now-empty buffer. -/
def sendLoop (maxP : Nat) (hasSeq : Bool) :
    List AV1OBU → List Nat → Bool → Bool → Nat →
    Option (List (List Nat × Bool))
  | [], buffered, is_first_packet, _, _ =>
    -- rtpenc_av1.c:214-224: flush whatever is buffered, marker = 1
    if buffered.isEmpty then some []
    else
      let N' := if hasSeq && is_first_packet then 1 else 0
      some [(set_payload_header 0 0 0 N' :: buffered, true)]
  | obu :: rest, buffered, is_first_packet, is_first_fragment, N =>
    if obu.type = AV1_OBU_TEMPORAL_DELIMITER then
      sendLoop maxP hasSeq rest buffered is_first_packet is_first_fragment N
    else
      let size_with_leb128 := get_leb128_len obu.raw_data.length + obu.raw_data.length
      -- buffered_size + size_with_leb128 + aggr_header_size > max_payload_size
      if maxP < size_with_leb128 + 1 + buffered.length then
        if buffered.isEmpty then
          -- rtpenc_av1.c:160-200: a big OBU, split it to send
          match fragObu maxP hasSeq (obu.raw_data.length + 1) obu.raw_data
              is_first_packet is_first_fragment N with
          | none => none
          | some (ps, ifp', iff', N') =>
            match sendLoop maxP hasSeq rest [] ifp' iff' N' with
            | none => none
            | some t => some (ps ++ t)
        else
          -- rtpenc_av1.c:147-158: flush the buffer, marker = 0, then retry
          let N' := if hasSeq && is_first_packet then 1 else 0
          let ifp' := if hasSeq && is_first_packet then false else is_first_packet
          let p1 := (set_payload_header 0 0 0 N' :: buffered, false)
          if maxP < size_with_leb128 + 1 then
            match fragObu maxP hasSeq (obu.raw_data.length + 1) obu.raw_data
                ifp' is_first_fragment N' with
            | none => none
            | some (ps, ifp'', iff'', N'') =>
              match sendLoop maxP hasSeq rest [] ifp'' iff'' N'' with
              | none => none
              | some t => some (p1 :: (ps ++ t))
          else
            match sendLoop maxP hasSeq rest
                (get_leb128_bytes obu.raw_data.length ++ obu.raw_data)
                ifp' is_first_fragment N' with
            | none => none
            | some t => some (p1 :: t)
      else
        -- rtpenc_av1.c:202-210: append the length-prefixed element
        sendLoop maxP hasSeq rest
          (buffered ++ get_leb128_bytes obu.raw_data.length ++ obu.raw_data)
          is_first_packet is_first_fragment N

/-- `ff_rtp_send_av1` (rtpenc_av1.c:89-227), after the external OBU
extraction pass (rtpenc_av1.c:116-134) that yields the ordered OBU list and
`has_seq_header`.  Returns the sequence of `(payload, marker)` pairs passed
to `ff_rtp_send_data`.  `is_first_packet` and `is_first_fragment` start at 1
and `N` at 0 — all are locals of one call. -/
def ff_rtp_send_av1 (obus : List AV1OBU) (maxP : Nat) :
    Option (List (List Nat × Bool)) :=
  sendLoop maxP (obus.any fun o => o.type = AV1_OBU_SEQUENCE_HEADER)
    obus [] true true 0

/- ### Facts about the varint codec -/

theorem log2fuel_bounds :
    ∀ fuel n, 0 < n → n ≤ fuel →
      2 ^ log2fuel fuel n ≤ n ∧ n < 2 ^ (log2fuel fuel n + 1) := by
  intro fuel
  induction fuel with
  | zero => intro n h1 h2; omega
  | succ fuel ih =>
    intro n h1 h2
    simp only [log2fuel]
    split
    · next h => simp; omega
    · next h =>
      have hd : 0 < n / 2 := by omega
      have hle : n / 2 ≤ fuel := by omega
      obtain ⟨l, r⟩ := ih (n / 2) hd hle
      have e1 : (2 : Nat) ^ (log2fuel fuel (n / 2) + 1) =
          2 ^ log2fuel fuel (n / 2) * 2 := by rw [Nat.pow_succ]
      have e2 : (2 : Nat) ^ (log2fuel fuel (n / 2) + 1 + 1) =
          2 ^ log2fuel fuel (n / 2) * 4 := by
        rw [Nat.pow_succ, Nat.pow_succ]; ring
      omega

theorem av_log2_bounds (n : Nat) (h : 0 < n) :
    2 ^ av_log2 n ≤ n ∧ n < 2 ^ (av_log2 n + 1) :=
  log2fuel_bounds n n h le_rfl

theorem get_leb128_len_pos (u : Nat) : 1 ≤ get_leb128_len u := by
  unfold get_leb128_len; omega

theorem get_leb128_len_le_eight {u : Nat} (h : u < 2 ^ 56) : get_leb128_len u ≤ 8 := by
  rcases Nat.eq_zero_or_pos u with rfl | hu
  · decide
  · have ⟨hl, _⟩ := av_log2_bounds u hu
    have : av_log2 u < 56 := by
      by_contra hc
      have : (2 : Nat) ^ 56 ≤ 2 ^ av_log2 u := Nat.pow_le_pow_right (by omega) (by omega)
      omega
    unfold get_leb128_len; omega

theorem lt_two_pow_seven_mul_len (u : Nat) : u < 2 ^ (7 * get_leb128_len u) := by
  rcases Nat.eq_zero_or_pos u with rfl | hu
  · exact Nat.pos_pow_of_pos _ (by omega)
  · have ⟨_, hr⟩ := av_log2_bounds u hu
    have h7 : av_log2 u + 1 ≤ 7 * get_leb128_len u := by unfold get_leb128_len; omega
    exact lt_of_lt_of_le hr (Nat.pow_le_pow_right (by omega) h7)

theorem two_pow_le_of_len {u : Nat} (hu : 0 < u) :
    2 ^ (7 * (get_leb128_len u - 1)) ≤ u := by
  have ⟨hl, _⟩ := av_log2_bounds u hu
  have h7 : 7 * (get_leb128_len u - 1) ≤ av_log2 u := by unfold get_leb128_len; omega
  exact le_trans (Nat.pow_le_pow_right (by omega) h7) hl

theorem and127_of_lt {x : Nat} (h : x < 128) : x &&& 127 = x := by
  have h1 : (127 : Nat) = 2 ^ 7 - 1 := by norm_num
  rw [h1, Nat.and_pow_two_sub_one_eq_mod]
  omega

theorem and128_of_lt {x : Nat} (h : x < 128) : x &&& 128 = 0 := by
  apply Nat.eq_of_testBit_eq
  intro j
  rw [show (128 : Nat) = 2 ^ 7 by norm_num, Nat.testBit_and, Nat.testBit_two_pow,
    Nat.zero_testBit]
  by_cases hj : 7 = j
  · subst hj
    simp [Nat.testBit_lt_two_pow (show x < 2 ^ 7 by omega)]
  · simp [hj]

theorem or128_and128 (x : Nat) : ((x &&& 127) ||| 128) &&& 128 = 128 := by
  rw [Nat.and_distrib_right]
  have h1 : (x &&& 127) &&& 128 = 0 :=
    and128_of_lt (lt_of_le_of_lt Nat.and_le_right (by omega))
  rw [h1]
  decide

theorem or128_and127 (x : Nat) : ((x &&& 127) ||| 128) &&& 127 = x &&& 127 := by
  rw [Nat.and_distrib_right]
  have h1 : (x &&& 127) &&& 127 = x &&& 127 :=
    and127_of_lt (lt_of_le_of_lt Nat.and_le_right (by omega))
  rw [h1, show (128 : Nat) &&& 127 = 0 by decide, Nat.or_zero]

theorem testBit_127 (m : Nat) : Nat.testBit 127 m = decide (m < 7) := by
  by_cases h : m < 7
  · interval_cases m <;> decide
  · have : (127 : Nat) < 2 ^ m :=
      lt_of_lt_of_le (show (127 : Nat) < 2 ^ 7 by norm_num)
        (Nat.pow_le_pow_right (by omega) (by omega))
    simp [Nat.testBit_lt_two_pow this, h]

theorem shift_merge (u i : Nat) :
    ((u &&& 127) <<< (7 * i)) ||| ((u >>> 7) <<< (7 * (i + 1))) = u <<< (7 * i) := by
  apply Nat.eq_of_testBit_eq
  intro j
  simp only [Nat.testBit_or, Nat.testBit_shiftLeft, Nat.testBit_shiftRight,
    Nat.testBit_and, testBit_127]
  by_cases h1 : 7 * i ≤ j
  · by_cases h2 : 7 * (i + 1) ≤ j
    · have e1 : ¬(j - 7 * i < 7) := by omega
      have e2 : 7 + (j - 7 * (i + 1)) = j - 7 * i := by omega
      simp [h1, h2, e1, e2, ge_iff_le]
    · have e1 : j - 7 * i < 7 := by omega
      simp [h1, h2, e1, ge_iff_le]
  · have h2 : ¬(7 * (i + 1) ≤ j) := by omega
    simp [h1, h2, ge_iff_le]

theorem shift_or_merge (a v i : Nat) :
    (a <<< (7 * i)) ||| (v <<< (7 * (i + 1))) = (a ||| (v <<< 7)) <<< (7 * i) := by
  apply Nat.eq_of_testBit_eq
  intro j
  simp only [Nat.testBit_or, Nat.testBit_shiftLeft]
  by_cases h1 : 7 * i ≤ j
  · by_cases h2 : 7 * (i + 1) ≤ j
    · have e2 : 7 ≤ j - 7 * i := by omega
      have e3 : j - 7 * (i + 1) = j - 7 * i - 7 := by omega
      simp [h1, h2, e2, e3, ge_iff_le]
    · have e2 : ¬(7 ≤ j - 7 * i) := by omega
      simp [h1, h2, e2, ge_iff_le]
  · simp [h1, show ¬(7 * (i + 1) ≤ j) by omega, ge_iff_le]

/-- Head-recursive view of the LEB128 byte list: byte 0 is the low 7 bits,
the rest encode `u >>> 7`. -/
def lebBytes : Nat → Nat → List Nat
  | _, 0 => []
  | u, 1 => [u &&& 127]
  | u, bn + 2 => ((u &&& 127) ||| 128) :: lebBytes (u >>> 7) (bn + 1)

theorem lebBytes_length : ∀ bn u, (lebBytes u bn).length = bn := by
  intro bn
  induction bn with
  | zero => intro u; rfl
  | succ b ih =>
    intro u
    cases b with
    | zero => rfl
    | succ c => simp [lebBytes, ih]

theorem range_map_eq_lebBytes :
    ∀ bn u, 0 < bn →
      ((List.range bn).map fun i =>
        ((u >>> (7 * i)) &&& 0x7f) ||| (if i < bn - 1 then 0x80 else 0)) =
      lebBytes u bn := by
  intro bn
  induction bn with
  | zero => omega
  | succ b ih =>
    intro u _
    cases b with
    | zero => simp [lebBytes, List.range_succ]
    | succ c =>
      rw [List.range_succ_eq_map, List.map_cons, List.map_map]
      have h0 : ((u >>> (7 * 0)) &&& 0x7f) ||| (if 0 < c + 2 - 1 then 0x80 else 0) =
          (u &&& 127) ||| 128 := by
        norm_num
      have hf : ∀ i ∈ List.range (c + 1),
          (((fun i => ((u >>> (7 * i)) &&& 0x7f) |||
              (if i < c + 2 - 1 then 0x80 else 0)) ∘ Nat.succ) i) =
          ((((u >>> 7) >>> (7 * i)) &&& 0x7f) |||
              (if i < c + 1 - 1 then 0x80 else 0)) := by
        intro i _
        have hs : u >>> (7 * (i + 1)) = (u >>> 7) >>> (7 * i) := by
          rw [← Nat.shiftRight_add]
          congr 1
          omega
        simp only [Function.comp, Nat.succ_eq_add_one, hs]
        congr 1
        by_cases hi : i < c + 1 - 1 <;> simp [hi]
      rw [List.map_congr_left hf, ih (u >>> 7) (by omega)]
      simp [lebBytes, h0]

theorem get_leb128_bytes_eq_lebBytes (u : Nat) :
    get_leb128_bytes u = lebBytes u (get_leb128_len u) := by
  unfold get_leb128_bytes
  exact range_map_eq_lebBytes _ u (get_leb128_len_pos u)

theorem get_leb128_bytes_length (u : Nat) :
    (get_leb128_bytes u).length = get_leb128_len u := by
  rw [get_leb128_bytes_eq_lebBytes, lebBytes_length]

theorem rtp_leb128_go_spec (p : List Nat) (off : Nat) :
    ∀ bn u k i acc, 0 < bn → bn ≤ k → u < 2 ^ (7 * bn) →
      (∀ j, j < bn → p[off + (i + j)]? = (lebBytes u bn)[j]?) →
      rtp_leb128_go p off k i acc = some (acc ||| (u <<< (7 * i)), i + bn) := by
  intro bn
  induction bn with
  | zero => omega
  | succ b ih =>
    intro u k i acc hpos hk hu hbytes
    obtain ⟨k', rfl⟩ : ∃ k', k = k' + 1 := ⟨k - 1, by omega⟩
    cases b with
    | zero =>
      have hb := hbytes 0 (by omega)
      simp only [lebBytes, List.getElem?_cons_zero, Nat.add_zero] at hb
      have hu7 : u < 128 := by
        have : 2 ^ (7 * 1) = 128 := by norm_num
        omega
      rw [rtp_leb128_go, hb]
      simp only [and127_of_lt hu7, and128_of_lt hu7]
      simp
    | succ c =>
      have hb0 := hbytes 0 (by omega)
      simp only [lebBytes, List.getElem?_cons_zero, Nat.add_zero] at hb0
      rw [rtp_leb128_go, hb0]
      simp only []
      have hcond : ¬(((u &&& 127) ||| 128) &&& 0x80 = 0) := by
        rw [show (0x80 : Nat) = 128 from rfl, or128_and128]
        omega
      rw [if_neg hcond]
      have hshift : u >>> 7 < 2 ^ (7 * (c + 1)) := by
        rw [Nat.shiftRight_eq_div_pow]
        apply Nat.div_lt_of_lt_mul
        have h1 : (2 : Nat) ^ (7 * (c + 1 + 1)) = 2 ^ 7 * 2 ^ (7 * (c + 1)) := by
          rw [← Nat.pow_add]
          congr 1
          omega
        omega
      have hbytes' : ∀ j, j < c + 1 →
          p[off + ((i + 1) + j)]? = (lebBytes (u >>> 7) (c + 1))[j]? := by
        intro j hj
        have := hbytes (j + 1) (by omega)
        rw [show off + (i + (j + 1)) = off + (i + 1 + j) by omega] at this
        simpa [lebBytes] using this
      have := ih (u >>> 7) k' (i + 1)
        (acc ||| ((((u &&& 127) ||| 128) &&& 0x7f) <<< (7 * i)))
        (by omega) (by omega) hshift hbytes'
      rw [this]
      congr 2
      · rw [show (0x7f : Nat) = 127 from rfl, or128_and127, Nat.or_assoc, shift_merge]
      · omega

theorem rtp_leb128_of_encoding {p : List Nat} {off u : Nat} {rest : List Nat}
    (hu : u < 2 ^ 56) (h : p.drop off = get_leb128_bytes u ++ rest) :
    rtp_leb128 p off = some (u, get_leb128_len u) := by
  have hlen8 := get_leb128_len_le_eight hu
  have hlenpos := get_leb128_len_pos u
  have hbytes : ∀ j, j < get_leb128_len u →
      p[off + (0 + j)]? = (lebBytes u (get_leb128_len u))[j]? := by
    intro j hj
    rw [Nat.zero_add, ← List.getElem?_drop, h, List.getElem?_append_left,
      get_leb128_bytes_eq_lebBytes]
    rw [get_leb128_bytes_length]
    exact hj
  have := rtp_leb128_go_spec p off (get_leb128_len u) u 8 0 0
    hlenpos hlen8 (lt_two_pow_seven_mul_len u) hbytes
  rw [rtp_leb128, this]
  simp

theorem isLegalLeb128_ne_nil {bs : List Nat} (h : isLegalLeb128 bs = true) :
    bs ≠ [] := by
  intro hnil
  rw [hnil] at h
  simp [isLegalLeb128] at h

theorem rtp_leb128_go_legal (p : List Nat) (off : Nat) :
    ∀ (bs : List Nat) (k i acc : Nat),
      isLegalLeb128 bs = true → bs.length ≤ k →
      (∀ j, j < bs.length → p[off + (i + j)]? = bs[j]?) →
      rtp_leb128_go p off k i acc =
        some (acc ||| (rtpLeb128Value bs <<< (7 * i)), i + bs.length) := by
  intro bs
  induction bs with
  | nil => intro k i acc hleg; simp [isLegalLeb128] at hleg
  | cons b bs ih =>
    intro k i acc hleg hk hbytes
    obtain ⟨k', rfl⟩ : ∃ k', k = k' + 1 := ⟨k - 1, by simp at hk; omega⟩
    have hb0 := hbytes 0 (by simp)
    simp only [List.getElem?_cons_zero, Nat.add_zero] at hb0
    rw [rtp_leb128_go, hb0]
    simp only []
    cases bs with
    | nil =>
      have hcont : b &&& 0x80 = 0 := by
        simpa [isLegalLeb128] using hleg
      rw [if_pos hcont]
      simp [rtpLeb128Value]
    | cons b' bs' =>
      simp only [isLegalLeb128, Bool.and_eq_true, bne_iff_ne, ne_eq] at hleg
      rw [if_neg hleg.1]
      have hbytes' : ∀ j, j < (b' :: bs').length →
          p[off + ((i + 1) + j)]? = (b' :: bs')[j]? := by
        intro j hj
        have := hbytes (j + 1) (by simp at hj ⊢; omega)
        rw [show off + (i + (j + 1)) = off + (i + 1 + j) by omega] at this
        simpa using this
      have := ih k' (i + 1)
        (acc ||| ((b &&& 0x7f) <<< (7 * i)))
        hleg.2 (by simp at hk ⊢; omega) hbytes'
      rw [this]
      congr 2
      · rw [Nat.or_assoc, shift_or_merge]
        rfl
      · simp
        omega

theorem rtp_leb128_of_legal {p : List Nat} {off : Nat} {bs rest : List Nat}
    (hleg : isLegalLeb128 bs = true) (hlen : bs.length ≤ 8)
    (h : p.drop off = bs ++ rest) :
    rtp_leb128 p off = some (rtpLeb128Value bs, bs.length) := by
  have hbytes : ∀ j, j < bs.length → p[off + (0 + j)]? = bs[j]? := by
    intro j hj
    rw [Nat.zero_add, ← List.getElem?_drop, h, List.getElem?_append_left hj]
  have := rtp_leb128_go_legal p off bs 8 0 0 hleg hlen hbytes
  rw [rtp_leb128, this]
  simp

/- ### Claim theorems -/

/-- C1: Varint round-trip.  For every `u < 2^56`, `rtp_leb128` decodes the
bytes produced by `get_leb128` back to `u` together with the number of
encoded bytes, and the encoding is minimum-length: `u` fits in
`7 * length` bits but (for `u ≠ 0`) not in `7 * (length - 1)` bits — i.e.
the group count is `ceil(bit_length(u) / 7)` — and `0` encodes to exactly
one zero byte. -/
theorem varint_roundtrip (u : Nat) (hu : u < 2 ^ 56) :
    rtp_leb128 (get_leb128_bytes u) 0 = some (u, (get_leb128_bytes u).length) ∧
    u < 2 ^ (7 * (get_leb128_bytes u).length) ∧
    (u ≠ 0 → 2 ^ (7 * ((get_leb128_bytes u).length - 1)) ≤ u) ∧
    get_leb128_bytes 0 = [0] := by
  have hdrop : (get_leb128_bytes u).drop 0 = get_leb128_bytes u ++ [] := by simp
  refine ⟨?_, ?_, ?_, by decide⟩
  · rw [rtp_leb128_of_encoding hu hdrop, get_leb128_bytes_length]
  · rw [get_leb128_bytes_length]
    exact lt_two_pow_seven_mul_len u
  · intro h0
    rw [get_leb128_bytes_length]
    exact two_pow_le_of_len (by omega)

/-- Witness for C1 at `u = 300` (encoding `[0xac, 0x02]`). -/
theorem varint_roundtrip_witness :
    rtp_leb128 (get_leb128_bytes 300) 0 = some (300, (get_leb128_bytes 300).length) ∧
    300 < 2 ^ (7 * (get_leb128_bytes 300).length) ∧
    (300 ≠ 0 → 2 ^ (7 * ((get_leb128_bytes 300).length - 1)) ≤ 300) ∧
    get_leb128_bytes 0 = [0] :=
  varint_roundtrip 300 (by decide)

/-- The length-prefixed part of an aggregation payload body: each item is a
`(length field, element)` pair, laid out as the length field's bytes followed
by the element's raw bytes. -/
def prefixedBody (items : List (List Nat × List Nat)) : List Nat :=
  (items.map fun pe => pe.1 ++ pe.2).flatten

theorem length_le_prefixedBody (items : List (List Nat × List Nat))
    (h : ∀ pe ∈ items, isLegalLeb128 pe.1 = true ∧
      rtpLeb128Value pe.1 = pe.2.length ∧ pe.1.length ≤ 8) :
    items.length ≤ (prefixedBody items).length := by
  induction items with
  | nil => simp [prefixedBody]
  | cons pe items ih =>
    have hne : pe.1 ≠ [] := isLegalLeb128_ne_nil (h pe (by simp)).1
    have hpos : 1 ≤ pe.1.length := List.length_pos.mpr hne
    have := ih fun x hx => h x (by simp [hx])
    simp only [prefixedBody, List.map_cons, List.flatten_cons, List.length_append,
      List.length_cons] at *
    omega

theorem aggLoopW0_legal (p : List Nat) :
    ∀ (items : List (List Nat × List Nat)) (fuel off : Nat) (out : List Nat),
      (∀ pe ∈ items, isLegalLeb128 pe.1 = true ∧
        rtpLeb128Value pe.1 = pe.2.length ∧ pe.1.length ≤ 8) →
      p.drop off = prefixedBody items →
      items.length ≤ fuel →
      aggLoopW0 p fuel off out =
        .ok (out ++ (items.map fun pe => pe.2).flatten) := by
  intro items
  induction items with
  | nil =>
    intro fuel off out _ hdrop _
    have hlen : p.length - off = 0 := by
      have := congrArg List.length hdrop
      simpa [prefixedBody] using this
    cases fuel <;> simp only [aggLoopW0] <;>
      rw [if_neg (show ¬off < p.length by omega)] <;> simp
  | cons pe items ih =>
    obtain ⟨pre, e⟩ := pe
    intro fuel off out hwf hdrop hfuel
    obtain ⟨hleg, hval, hlen8⟩ := hwf (pre, e) (by simp)
    have hprepos : 1 ≤ pre.length := List.length_pos.mpr (isLegalLeb128_ne_nil hleg)
    have hdrop' : p.drop off = pre ++ (e ++ prefixedBody items) := by
      simpa [prefixedBody, List.append_assoc] using hdrop
    have hlendrop : p.length - off =
        pre.length + (e.length + (prefixedBody items).length) := by
      have := congrArg List.length hdrop'
      simp only [List.length_drop, List.length_append] at this
      omega
    have hoff : off < p.length := by omega
    obtain ⟨f, rfl⟩ : ∃ f, fuel = f + 1 := ⟨fuel - 1, by simp at hfuel; omega⟩
    have hle : off + pre.length + e.length ≤ p.length := by omega
    have hdrop2 : p.drop (off + pre.length) = e ++ prefixedBody items := by
      rw [← List.drop_drop, hdrop', List.drop_left]
    have hdrop3 : p.drop (off + pre.length + e.length) = prefixedBody items := by
      rw [← List.drop_drop, hdrop2]
      exact List.drop_left e (prefixedBody items)
    simp only [aggLoopW0]
    rw [if_pos hoff]
    simp only [rtp_leb128_of_legal hleg hlen8 hdrop', hval]
    rw [if_pos hle, hdrop2, List.take_left]
    rw [ih f (off + pre.length + e.length) (out ++ e)
      (fun x hx => hwf x (by simp [hx])) hdrop3 (by simp at hfuel ⊢; omega)]
    simp

theorem aggLoopW_legal (p lastElem : List Nat) :
    ∀ (items : List (List Nat × List Nat)) (off : Nat) (out : List Nat),
      (∀ pe ∈ items, isLegalLeb128 pe.1 = true ∧
        rtpLeb128Value pe.1 = pe.2.length ∧ pe.1.length ≤ 8) →
      p.drop off = prefixedBody items ++ lastElem →
      off ≤ p.length →
      aggLoopW p (items.length + 1) off out =
        .ok (out ++ ((items.map fun pe => pe.2).flatten ++ lastElem)) := by
  intro items
  induction items with
  | nil =>
    intro off out _ hdrop hoffle
    simp only [List.length_nil, Nat.zero_add, aggLoopW]
    rw [if_pos hoffle, hdrop]
    simp [prefixedBody]
  | cons pe items ih =>
    obtain ⟨pre, e⟩ := pe
    intro off out hwf hdrop hoffle
    obtain ⟨hleg, hval, hlen8⟩ := hwf (pre, e) (by simp)
    have hprepos : 1 ≤ pre.length := List.length_pos.mpr (isLegalLeb128_ne_nil hleg)
    have hdrop' : p.drop off = pre ++ (e ++ (prefixedBody items ++ lastElem)) := by
      simpa [prefixedBody, List.append_assoc] using hdrop
    have hlendrop : p.length - off =
        pre.length + (e.length + ((prefixedBody items).length + lastElem.length)) := by
      have := congrArg List.length hdrop'
      simp only [List.length_drop, List.length_append] at this
      omega
    have hle : off + pre.length + e.length ≤ p.length := by omega
    have hdrop2 : p.drop (off + pre.length) = e ++ (prefixedBody items ++ lastElem) := by
      rw [← List.drop_drop, hdrop', List.drop_left]
    have hdrop3 : p.drop (off + pre.length + e.length) =
        prefixedBody items ++ lastElem := by
      rw [← List.drop_drop, hdrop2]
      exact List.drop_left e (prefixedBody items ++ lastElem)
    rw [show ((pre, e) :: items).length + 1 = items.length + 1 + 1 by simp]
    simp only [aggLoopW]
    simp only [rtp_leb128_of_legal hleg hlen8 hdrop', hval]
    rw [if_pos hle, hdrop2, List.take_left]
    rw [ih (off + pre.length + e.length) (out ++ e)
      (fun x hx => hwf x (by simp [hx])) hdrop3 (by omega)]
    simp

/-- C5: every aggregation payload (aggregation header byte with `Z = 0` and
`Y = 0`) makes `av1_handle_packet` return, in that same call, a single unit
that is the concatenation of the element payloads in order — the LEB128
length fields (any legal encodings, minimal or not) are consumed and not
copied to the output — and the accumulation state `data` is returned
unchanged: nothing is buffered across packets.  With `W = 0` every element
is length-prefixed and the elements exactly fill the payload
(`lastElem = []`); with `W ∈ {1, 2, 3}` the first `W - 1` elements are
length-prefixed and the final element `lastElem` takes all remaining bytes
without a length field. -/
theorem agg_returns_concat (data : PayloadContext) (hdr : Nat)
    (items : List (List Nat × List Nat)) (lastElem : List Nat)
    (hZ : hdr >>> 7 = 0)
    (hY : (hdr >>> 6) &&& 0x01 = 0)
    (hitems : ∀ pe ∈ items, isLegalLeb128 pe.1 = true ∧
      rtpLeb128Value pe.1 = pe.2.length ∧ pe.1.length ≤ 8)
    (hW0 : (hdr >>> 4) &&& 0x03 = 0 → lastElem = [])
    (hWn : (hdr >>> 4) &&& 0x03 ≠ 0 → (hdr >>> 4) &&& 0x03 = items.length + 1) :
    av1_handle_packet data (hdr :: (prefixedBody items ++ lastElem)) =
      .ok (data, some ((items.map fun pe => pe.2).flatten ++ lastElem)) := by
  by_cases hw : (hdr >>> 4) &&& 0x03 = 0
  · obtain rfl := hW0 hw
    simp only [List.append_nil]
    simp only [av1_handle_packet, hZ, hY, and_self, if_true]
    rw [if_pos hw.symm]
    have hloop := aggLoopW0_legal (hdr :: prefixedBody items) items
      (hdr :: prefixedBody items).length 1 [] hitems (by simp)
      (by have := length_le_prefixedBody items hitems; simp; omega)
    rw [hloop]
    simp
  · have hlen := hWn hw
    simp only [av1_handle_packet, hZ, hY, and_self, if_true]
    rw [if_neg (show ¬(0 = (hdr >>> 4) &&& 0x03) by omega), hlen]
    have hloop := aggLoopW_legal (hdr :: (prefixedBody items ++ lastElem)) lastElem
      items 1 [] hitems (by simp) (by simp)
    rw [hloop]
    simp

/-- Witness for C5: a `W = 2` aggregation payload (header `0x20`) whose
first element `[0xaa]` carries a non-minimal two-byte length field
`[0x81, 0x00]` and whose last element `[0xbb, 0xcc]` has no length field,
handled while a reassembly is pending. -/
theorem agg_returns_concat_witness :
    av1_handle_packet ⟨0, 0, 0, 5, 2, [2, 3, 0, 0, 0], 5⟩
        (0x20 :: (prefixedBody [([0x81, 0x00], [0xaa])] ++ [0xbb, 0xcc])) =
      .ok (⟨0, 0, 0, 5, 2, [2, 3, 0, 0, 0], 5⟩,
        some ((([([0x81, 0x00], [0xaa])] : List (List Nat × List Nat)).map
          fun pe => pe.2).flatten ++ [0xbb, 0xcc])) :=
  agg_returns_concat ⟨0, 0, 0, 5, 2, [2, 3, 0, 0, 0], 5⟩ 0x20
    [([0x81, 0x00], [0xaa])] [0xbb, 0xcc]
    (by decide) (by decide) (by decide) (by decide) (by decide)

/-- C10: any `av1_handle_packet` call whose payload is an aggregation packet
(`Z == 0` and `Y == 0`) that returns normally leaves all fragment
accumulation fields (`obu_total_size`, `obu_readed_size`, `obu_buf`,
`obu_buf_size`) exactly as they were: an aggregation packet arriving between
fragments does not disturb a pending reassembly. -/
theorem agg_preserves_accumulation (data : PayloadContext) (hdr : Nat)
    (rest : List Nat) (d' : PayloadContext) (out : Option (List Nat))
    (hZ : hdr >>> 7 = 0) (hY : (hdr >>> 6) &&& 0x01 = 0)
    (h : av1_handle_packet data (hdr :: rest) = .ok (d', out)) :
    d'.obu_total_size = data.obu_total_size ∧
    d'.obu_readed_size = data.obu_readed_size ∧
    d'.obu_buf = data.obu_buf ∧
    d'.obu_buf_size = data.obu_buf_size := by
  simp only [av1_handle_packet, hZ, hY, and_self, if_true] at h
  split at h <;> split at h <;> simp_all

/-- Witness for C10: an aggregation payload handled while a 5-byte OBU
reassembly is pending (2 bytes already read). -/
theorem agg_preserves_accumulation_witness :
    (⟨0, 0, 0, 5, 2, [2, 3, 0, 0, 0], 5⟩ : PayloadContext).obu_total_size =
      (⟨0, 0, 0, 5, 2, [2, 3, 0, 0, 0], 5⟩ : PayloadContext).obu_total_size ∧
    (⟨0, 0, 0, 5, 2, [2, 3, 0, 0, 0], 5⟩ : PayloadContext).obu_readed_size =
      (⟨0, 0, 0, 5, 2, [2, 3, 0, 0, 0], 5⟩ : PayloadContext).obu_readed_size ∧
    (⟨0, 0, 0, 5, 2, [2, 3, 0, 0, 0], 5⟩ : PayloadContext).obu_buf =
      (⟨0, 0, 0, 5, 2, [2, 3, 0, 0, 0], 5⟩ : PayloadContext).obu_buf ∧
    (⟨0, 0, 0, 5, 2, [2, 3, 0, 0, 0], 5⟩ : PayloadContext).obu_buf_size =
      (⟨0, 0, 0, 5, 2, [2, 3, 0, 0, 0], 5⟩ : PayloadContext).obu_buf_size :=
  agg_preserves_accumulation ⟨0, 0, 0, 5, 2, [2, 3, 0, 0, 0], 5⟩ 0 [1, 0xab]
    ⟨0, 0, 0, 5, 2, [2, 3, 0, 0, 0], 5⟩ (some [0xab]) rfl rfl (by decide)

theorem getLast?_cons_of_ne_nil {α : Type} {l : List α} (h : l ≠ []) (x : α) :
    (x :: l).getLast? = l.getLast? := by
  cases l with
  | nil => exact absurd rfl h
  | cons a as => exact List.getLast?_cons_cons

/-- C4 (amended): whenever the fragmentation branch terminates normally, the
final payload it emits for the remainder of the oversized OBU has
`Z = 1`, `Y = 0`, `W = 0`, `N = 0`, consists of the aggregation header byte
followed by a LEB128 length field for the remaining bytes followed by those
remaining bytes (a suffix of the OBU), and its marker bit is `true`
unconditionally — regardless of whether this OBU is the last transmitted OBU
of the access unit. -/
theorem fragObu_last_payload (maxP : Nat) (hasSeq : Bool) :
    ∀ (fuel : Nat) (raw : List Nat) (ifp iff : Bool) (N : Nat)
      (ps : List (List Nat × Bool)) (a b : Bool) (c : Nat),
      fragObu maxP hasSeq fuel raw ifp iff N = some (ps, a, b, c) →
      ∃ tail : List Nat, tail <:+ raw ∧
        ps.getLast? = some (set_payload_header 1 0 0 0 ::
          (get_leb128_bytes tail.length ++ tail), true) := by
  intro fuel
  induction fuel with
  | zero =>
    intro raw ifp iff N ps a b c h
    simp only [fragObu] at h
    split at h
    · exact absurd h (by simp)
    · simp only [Option.some.injEq, Prod.mk.injEq] at h
      obtain ⟨h1, -, -, -⟩ := h
      refine ⟨raw, List.suffix_refl raw, ?_⟩
      rw [← h1]
      simp
  | succ f ih =>
    intro raw ifp iff N ps a b c h
    simp only [fragObu] at h
    split at h
    · split at h
      · exact absurd h (by simp)
      · split at h
        · exact absurd h (by simp)
        · rename_i ps' a' b' c' heq
          simp only [Option.some.injEq, Prod.mk.injEq] at h
          obtain ⟨h1, -, -, -⟩ := h
          obtain ⟨tail, hsuf, hlast⟩ := ih _ _ _ _ _ _ _ _ heq
          refine ⟨tail, hsuf.trans (List.drop_suffix _ _), ?_⟩
          have hne : ps' ≠ [] := by
            intro hnil
            rw [hnil] at hlast
            simp at hlast
          rw [← h1, getLast?_cons_of_ne_nil hne, hlast]
    · simp only [Option.some.injEq, Prod.mk.injEq] at h
      obtain ⟨h1, -, -, -⟩ := h
      refine ⟨raw, List.suffix_refl raw, ?_⟩
      rw [← h1]
      simp

/-- Witness for C4 (amended): a 9-byte OBU fragmented at
`max_payload_size = 6`; the last of the three emitted payloads is
`0x80 :: length field 1 :: final byte`, marker true. -/
theorem fragObu_last_payload_witness :
    ∃ tail : List Nat, tail <:+ List.replicate 9 53 ∧
      ([([0x40, 4, 53, 53, 53, 53], false), ([0xc0, 4, 53, 53, 53, 53], false),
        ([0x80, 1, 53], true)] : List (List Nat × Bool)).getLast? =
        some (set_payload_header 1 0 0 0 ::
          (get_leb128_bytes tail.length ++ tail), true) :=
  fragObu_last_payload 6 false 10 (List.replicate 9 53) true true 0
    [([0x40, 4, 53, 53, 53, 53], false), ([0xc0, 4, 53, 53, 53, 53], false),
      ([0x80, 1, 53], true)] true false 0 (by decide)

/-- Counterexample to C4 as stated: a 9-byte OBU followed by a 2-byte OBU,
`max_payload_size = 6`.  The final fragmentation payload for the 9-byte OBU
is `([0x80, 0x01, 53], marker = true)`: it DOES carry a LEB128 length field
(`0x01`) before the remaining OBU byte, and its marker bit is true even
though this OBU is not the last transmitted OBU of the access unit (a fourth
payload follows) — the claim predicts `([0x80, 53], marker = false)`. -/
theorem frag_final_counterexample :
    ff_rtp_send_av1 [⟨6, List.replicate 9 0x35⟩, ⟨6, [0x21, 0x22]⟩] 6 =
      some [([0x40, 4, 53, 53, 53, 53], false), ([0xc0, 4, 53, 53, 53, 53], false),
            ([0x80, 1, 53], true), ([0x00, 2, 33, 34], true)] ∧
    (([0x80, 1, 53], true) : List Nat × Bool) ≠
      (set_payload_header 1 0 0 0 :: [53], false) := by decide

/-- C2 at the failing input: two 9-byte OBUs, `max_payload_size = 6`.  The
first fragment of the SECOND oversized OBU (payload 4) has header byte
`0xc0`, i.e. `Z = 1`, because `is_first_fragment` is never reset between
OBUs — the claim (and the code's own comment on `Z`) requires `Z = 0` there,
i.e. header `0x40`. -/
theorem second_big_obu_z_flag :
    ff_rtp_send_av1 [⟨6, List.replicate 9 0x35⟩, ⟨6, List.replicate 9 0x36⟩] 6 =
      some [([0x40, 4, 53, 53, 53, 53], false), ([0xc0, 4, 53, 53, 53, 53], false),
            ([0x80, 1, 53], true),
            ([0xc0, 4, 54, 54, 54, 54], false), ([0xc0, 4, 54, 54, 54, 54], false),
            ([0x80, 1, 54], true)] ∧
    0xc0 >>> 7 = 1 ∧ set_payload_header 0 1 0 0 = 0x40 := by decide

/-- C3 at the failing input: one 9-byte sequence-header OBU,
`max_payload_size = 6`, a single `send` call.  Payload 1 has header `0x48`
(`N = 1`) and payload 2 has header `0xc8` (`N = 1` again): `N` is never
cleared inside the fragmentation loop, so a second transmitted payload also
carries `N = 1`, contradicting "every subsequent payload carries N = 0". -/
theorem n_flag_repeated :
    ff_rtp_send_av1 [⟨1, List.replicate 9 0x35⟩] 6 =
      some [([0x48, 4, 53, 53, 53, 53], false), ([0xc8, 4, 53, 53, 53, 53], false),
            ([0x80, 1, 53], true)] ∧
    (0x48 >>> 3) &&& 1 = 1 ∧ (0xc8 >>> 3) &&& 1 = 1 := by decide

/-- C6 at the failing input: a first fragment establishes
`total_size = 5` with 2 bytes read; a continuation fragment carrying 4 more
bytes then makes the code `memcpy` past the end of the 5-byte accumulation
buffer — an out-of-bounds write (heap overflow), not a clean
`FragmentOverflow` failure. -/
theorem fragment_overflow_oob :
    av1_handle_packet ⟨0, 0, 0, 0, 0, [], 0⟩ [0x40, 0x02, 0x02, 0x03] =
      .ok (⟨0, 0, 0, 5, 2, [2, 3, 0, 0, 0], 5⟩, none) ∧
    av1_handle_packet ⟨0, 0, 0, 5, 2, [2, 3, 0, 0, 0], 5⟩
        [0x80, 0x04, 0x11, 0x22, 0x33, 0x44] = .error .oobWrite := by decide

/-- C7 at the failing input: an aggregation payload whose declared element
length (5) exceeds the remaining bytes (1).  The code has no
`MalformedAggregation` check: it `memcpy`s 5 bytes from a 1-byte remainder —
an out-of-bounds read (undefined behaviour), not an error return. -/
theorem malformed_aggregation_oob :
    av1_handle_packet ⟨0, 0, 0, 5, 2, [2, 3, 0, 0, 0], 5⟩ [0x00, 0x05, 0xaa] =
      .error .oobRead := by decide

/-- C8 at the failing input: a first fragment whose OBU header byte `0x82`
has the forbidden bit (bit 7) set.  The code computes `forbidden_bit` but
never checks it, so the call succeeds and reassembles the OBU instead of
failing with `InvalidObuHeader`. -/
theorem forbidden_bit_ignored :
    av1_handle_packet ⟨0, 0, 0, 0, 0, [], 0⟩ [0x80, 0x03, 0x82, 0x01, 0xaa] =
      .ok (⟨0, 0, 0, 0, 0, [0x82, 0x01, 0xaa], 3⟩, some [0x82, 0x01, 0xaa]) ∧
    0x82 >>> 7 = 1 := by decide

/-- C9 at the failing input: eight continuation bytes `0x80`.  `rtp_leb128`
has no error path: it returns value 0 with `bytes_num = 9` (one more than it
read) instead of failing with `TruncatedVarint`; and on a 1-byte buffer
`[0x80]` it reads past the end (undefined behaviour, `none` here) rather
than reporting truncation. -/
theorem rtp_leb128_no_truncation_error :
    rtp_leb128 (List.replicate 8 0x80) 0 = some (0, 9) ∧
    rtp_leb128 [0x80] 0 = none := by decide
